import Mathlib

/-!
Shallow embedding of the text-processing core of the Python-projects repository:
the TTS text chunker (`_chunk_text` in Text_SpeechToPython.py), the spoken-word
normalizer (`normalize_pronounced_punctuation` in SpeechToText_Python.py), the
website-name normalizer and resolver (`normalize_word`, `openweb` in Web_Open.py),
and the log-line formats.  Strings are modelled as `List Char`.
-/

namespace Jarvis

/-- Characters treated as whitespace by Python's str.strip / str.split / regex \s
(ASCII subset, which covers all inputs handled here). -/
def isSpace (c : Char) : Bool :=
  c == ' ' || c == '\t' || c == '\n' || c == '\r' || c == Char.ofNat 11 || c == Char.ofNat 12

/-- Python s.strip(chars): drop characters satisfying p from both ends. -/
def stripBy (p : Char → Bool) (s : List Char) : List Char :=
  ((s.dropWhile p).reverse.dropWhile p).reverse

/-- Python s.strip() with no argument. -/
def trim (s : List Char) : List Char := stripBy isSpace s

/-- Convert a Lean string literal to the `List Char` model. -/
def str (s : String) : List Char := s.data

/-! ## TextChunker (`JarvisTTS._chunk_text`) -/

/-- text.replace("?", ".").replace("!", ".") -/
def replaceQB (s : List Char) : List Char :=
  s.map fun c => if c = '?' then '.' else if c = '!' then '.' else c

/-- Helper for Python text.split("."): returns the first fragment and the
remaining fragments. -/
def splitDotF : List Char → List Char × List (List Char)
  | [] => ([], [])
  | c :: rest =>
    if c = '.' then ([], (splitDotF rest).1 :: (splitDotF rest).2)
    else (c :: (splitDotF rest).1, (splitDotF rest).2)

/-- Python text.split("."), which always returns at least one fragment. -/
def splitDot (s : List Char) : List (List Char) :=
  (splitDotF s).1 :: (splitDotF s).2

/-- Python ". ".join(parts). -/
def joinDot : List (List Char) → List Char
  | [] => []
  | [s] => s
  | s :: rest => s ++ '.' :: ' ' :: joinDot rest

/-- The body of the sentence loop of `_chunk_text` for a (stripped, non-empty)
sentence s: accept it into the current accumulation if the stripped candidate
fits, otherwise seal the current accumulation (if any) with a trailing period
and restart from s. -/
def cleanStep (maxLen : Nat) (st : List (List Char) × List (List Char))
    (s : List Char) : List (List Char) × List (List Char) :=
  if (trim (joinDot (st.2 ++ [s]))).length ≤ maxLen then (st.1, st.2 ++ [s])
  else if st.2 = [] then (st.1, [s])
  else (st.1 ++ [joinDot st.2 ++ ['.']], [s])

/-- One iteration of the sentence loop of `_chunk_text`: strip the fragment,
skip it when empty, otherwise run the loop body. -/
def chunkStep (maxLen : Nat) (st : List (List Char) × List (List Char))
    (frag : List Char) : List (List Char) × List (List Char) :=
  if trim frag = [] then st else cleanStep maxLen st (trim frag)

/-- The final state of the sentence loop of `_chunk_text` on over-length text. -/
def chunkFold (text : List Char) (maxLen : Nat) :
    List (List Char) × List (List Char) :=
  (splitDot (replaceQB (trim text))).foldl (chunkStep maxLen) ([], [])

/-- `_chunk_text(text)` with `max_chunk_len = maxLen`. -/
def chunkText (text : List Char) (maxLen : Nat) : List (List Char) :=
  if (trim text).length ≤ maxLen then [trim text]
  else if (chunkFold text maxLen).2 = [] then (chunkFold text maxLen).1
  else (chunkFold text maxLen).1 ++ [joinDot (chunkFold text maxLen).2 ++ ['.']]

/-- Trim every fragment and drop the empty ones (the per-sentence cleanup the
chunk loop performs before accumulating). -/
def clean (l : List (List Char)) : List (List Char) :=
  (l.map trim).filter fun s => !s.isEmpty

/-- The sequence of non-empty trimmed sentences of a text, splitting on
sentence terminators with "?" and "!" normalized to ".". -/
def sentencesOf (text : List Char) : List (List Char) :=
  clean (splitDot (replaceQB text))

/-- Split a chunk back on ".", trim the fragments and drop the empty ones. -/
def fragsOf (chunk : List Char) : List (List Char) :=
  clean (splitDot chunk)

/-! ## WebsiteResolver: `normalize_word` (Web_Open.py) -/

/-- The punctuation characters stripped from both ends of a word by
`w.strip(",.!?/:\\|")`. -/
def punctSet (c : Char) : Bool :=
  c == ',' || c == '.' || c == '!' || c == '?' || c == '/' || c == ':' ||
    c == Char.ofNat 92 || c == '|'

/-- Python `if w.startswith(lit): w = w[len(lit):]`. -/
def dropLit (lit w : List Char) : List Char :=
  if lit.isPrefixOf w then w.drop lit.length else w

/-- Python `if w.endswith(suf): w = w[:-len(suf)]`. -/
def dropSuf (suf w : List Char) : List Char :=
  if suf.isSuffixOf w then w.take (w.length - suf.length) else w

/-- The protocol-stripping loop of `normalize_word`. -/
def stripProto (w : List Char) : List Char :=
  [str "http://", str "https://"].foldl (fun w p => dropLit p w) w

/-- The "www." removal of `normalize_word`. -/
def stripWww (w : List Char) : List Char := dropLit (str "www.") w

/-- The TLD suffix list of `normalize_word`, in source order. -/
def tldList : List (List Char) := [str ".com", str ".in", str ".org", str ".net"]

/-- The trailing-TLD loop of `normalize_word` (note: no break after a strip). -/
def stripTlds (w : List Char) : List Char :=
  tldList.foldl (fun w s => dropSuf s w) w

/-- The stages of `normalize_word` before the TLD loop. -/
def preTld (w : List Char) : List Char :=
  stripWww (stripProto (stripBy punctSet (trim (w.map Char.toLower))))

/-- `normalize_word` from Web_Open.py. -/
def normalize_word (w : List Char) : List Char := stripTlds (preTld w)

/-! ## Log-line formats (`log_to_file`, `append_to_input_file`) -/

/-- Python str(True) / str(False). -/
def boolStr : Bool → List Char
  | true => str "True"
  | false => str "False"

/-- The line written by `log_to_file(message, status)` in Web_Open.py for a
given timestamp: with a status flag it writes
"{timestamp} | DEEP: {message} | {status}\n", without one it writes
"{timestamp} |  DEEP: {message}\n" (two spaces before DEEP in the source). -/
def logLine (ts msg : List Char) : Option Bool → List Char
  | some b => ts ++ str " | DEEP: " ++ msg ++ str " | " ++ boolStr b ++ ['\n']
  | none => ts ++ str " |  DEEP: " ++ msg ++ ['\n']

/-- The line written by `append_to_input_file(text)` in SpeechToText_Python.py:
"{timestamp} | DEEP: {text}\n". -/
def appendLine (ts text : List Char) : List Char :=
  ts ++ str " | DEEP: " ++ text ++ ['\n']

/-! ## PunctuationNormalizer (`normalize_pronounced_punctuation`)

The regex passes of the source are embedded as left-to-right scanners that
reproduce `re.sub` semantics (leftmost non-overlapping matches, alternatives
tried in order, greedy whitespace, word boundaries) for the specific pattern
shapes the source uses. -/

/-- Regex word character \w (ASCII). -/
def isWordChar (c : Char) : Bool := c.isAlpha || c.isDigit || c == '_'

/-- Case-insensitive literal match; returns the rest of the input on success. -/
def matchChunk : List Char → List Char → Option (List Char)
  | [], rest => some rest
  | _ :: _, [] => none
  | p :: ps, c :: rest => if c.toLower = p.toLower then matchChunk ps rest else none

/-- The word boundary \b that closes every pattern: the next character, if any,
is not a word character (all alternatives end in a letter). -/
def endBoundary : List Char → Bool
  | [] => true
  | c :: _ => !(isWordChar c)

/-- Try the alternatives of `\b(a1|a2|...)\b` in order at the current position,
requiring the closing word boundary. -/
def tryAlts (alts : List (List Char)) (input : List Char) : Option (List Char) :=
  match alts with
  | [] => none
  | a :: rest =>
    match matchChunk a input with
    | some rem => if endBoundary rem then some rem else tryAlts rest input
    | none => tryAlts rest input

/-- Scanner for one `pattern.sub(repl, s)` pass with a word-alternation
pattern.  The Bool records whether the previous character of the original
string was a word character (for the opening \b); the Nat is fuel, set
above the input length so it never runs out (each step consumes at least
one character). -/
def subWordGo (alts : List (List Char)) (repl : List Char) :
    Nat → Bool → List Char → List Char
  | 0, _, rest => rest
  | _ + 1, _, [] => []
  | n + 1, prevW, c :: rest =>
    match (if prevW then none else tryAlts alts (c :: rest)) with
    | some rem => repl ++ subWordGo alts repl n true rem
    | none => c :: subWordGo alts repl n (isWordChar c) rest

/-- One `pattern.sub(repl, s)` pass for a `\b(w1|w2|...)\b` pattern. -/
def subWord (alts : List (List Char)) (repl input : List Char) : List Char :=
  subWordGo alts repl (input.length + 1) false input

/-- Match the spelled-out variant parts joined by `\s*` (e.g. `t\s*x\s*t`),
then require the closing \b. -/
def matchParts : List (List Char) → List Char → Option (List Char)
  | [], rest => some rest
  | [p], rest => matchChunk p rest
  | p :: ps, rest =>
    match matchChunk p rest with
    | some r => matchParts ps (r.dropWhile isSpace)
    | none => none

/-- Try `\bdot\s+variant\b` at the current position. -/
def tryExt (parts : List (List Char)) (input : List Char) : Option (List Char) :=
  match matchChunk (str "dot") input with
  | none => none
  | some [] => none
  | some (c :: r) =>
    if isSpace c then
      match matchParts parts ((c :: r).dropWhile isSpace) with
      | some rem => if endBoundary rem then some rem else none
      | none => none
    else none

/-- Scanner for one extension pattern pass (`\bdot\s+variant\b` → ".ext"). -/
def subExtGo (parts : List (List Char)) (ext : List Char) :
    Nat → Bool → List Char → List Char
  | 0, _, rest => rest
  | _ + 1, _, [] => []
  | n + 1, prevW, c :: rest =>
    match (if prevW then none else tryExt parts (c :: rest)) with
    | some rem => '.' :: ext ++ subExtGo parts ext n true rem
    | none => c :: subExtGo parts ext n (isWordChar c) rest

/-- One `pattern.sub(".ext", s)` pass for a `\bdot\s+variant\b` pattern. -/
def subExt (parts : List (List Char)) (ext input : List Char) : List Char :=
  subExtGo parts ext (input.length + 1) false input

/-- `_DOT_EXT_PATTERNS`, in the construction order of the source:
(variant parts, extension). -/
def extPatterns : List (List (List Char) × List Char) :=
  [ ([str "t", str "x", str "t"], str "txt"),
    ([str "txt"], str "txt"),
    ([str "p", str "y"], str "py"),
    ([str "py"], str "py"),
    ([str "c"], str "c"),
    ([str "c", str "p", str "p"], str "cpp"),
    ([str "cpp"], str "cpp"),
    ([str "c", str "plus", str "plus"], str "cpp") ]

/-- `_PUNCT_PATTERNS`, in source order: (alternatives, replacement). -/
def punctPatterns : List (List (List Char) × List Char) :=
  [ ([str "hash", str "pound", str "number sign"], str "#"),
    ([str "dollar", str "dollar sign"], str "$"),
    ([str "ampersand", str "and sign"], str "&"),
    ([str "dot", str "period", str "full stop"], str "."),
    ([str "comma"], str ","),
    ([str "semicolon"], str ";"),
    ([str "colon"], str ":"),
    ([str "underscore", str "under score"], str "_"),
    ([str "dash", str "hyphen", str "minus"], str "-"),
    ([str "plus", str "add", str "plus sign"], str "+"),
    ([str "slash", str "forward slash"], str "/"),
    ([str "backslash", str "back slash"], [Char.ofNat 92]),
    ([str "star", str "asterisk"], str "*"),
    ([str "percent", str "percentage"], str "%"),
    ([str "equal", str "equals", str "equal to"], str "="),
    ([str "greater than"], str ">"),
    ([str "less than"], str "<"),
    ([str "pipe", str "vertical bar"], str "|"),
    ([str "caret"], str "^"),
    ([str "at", str "at the rate"], str "@"),
    ([str "exclamation", str "bang", str "exclamation mark"], str "!"),
    ([str "question mark", str "question"], str "?"),
    ([str "quote", str "double quote"], [Char.ofNat 34]),
    ([str "single quote", str "apostrophe"], [Char.ofNat 39]),
    ([str "open parenthesis", str "open bracket", str "left parenthesis"], str "("),
    ([str "close parenthesis", str "close bracket", str "right parenthesis"], str ")"),
    ([str "open brace", str "left brace"], [Char.ofNat 123]),
    ([str "close brace", str "right brace"], [Char.ofNat 125]),
    ([str "open square bracket", str "left square bracket"], str "["),
    ([str "close square bracket", str "right square bracket"], str "]"),
    ([str "space", str "blank"], str " "),
    ([str "new line", str "newline"], ['\n']) ]

/-- Step 1 of the source: apply every extension pattern in order. -/
def applyExtPatterns (input : List Char) : List Char :=
  extPatterns.foldl (fun acc pe => subExt pe.1 pe.2 acc) input

/-- Step 2 of the source: apply every punctuation pattern in order. -/
def applyPunctPatterns (input : List Char) : List Char :=
  punctPatterns.foldl (fun acc pr => subWord pr.1 pr.2 acc) input

/-- Scanner for a `re.sub(r"\s*(CLS)\s*", repl, s)` pass: `pending` holds the
whitespace run seen since the last emission (reversed); `absorb` is set right
after a match, while its trailing `\s*` is still being consumed. -/
def subAroundGo (cls : Char → Bool) (rep : Char → List Char) :
    Bool → List Char → List Char → List Char
  | absorb, pending, [] => if absorb then [] else pending.reverse
  | absorb, pending, c :: rest =>
    if isSpace c then
      if absorb then subAroundGo cls rep true pending rest
      else subAroundGo cls rep false (c :: pending) rest
    else if cls c then rep c ++ subAroundGo cls rep true [] rest
    else if absorb then c :: subAroundGo cls rep false [] rest
    else pending.reverse ++ c :: subAroundGo cls rep false [] rest

/-- One `re.sub(r"\s*(CLS)\s*", repl, s)` pass. -/
def subAround (cls : Char → Bool) (rep : Char → List Char) (input : List Char) :
    List Char :=
  subAroundGo cls rep false [] input

/-- The symbol class of step 3 ("tighten spaces around common symbols"). -/
def symCls (c : Char) : Bool :=
  c == '/' || c == Char.ofNat 92 || c == '.' || c == '-' || c == '+' || c == '*' ||
    c == '%' || c == '=' || c == '&' || c == '|' || c == '^' || c == '#' ||
    c == '@' || c == '!' || c == '?' || c == ',' || c == ':' || c == ';'

/-- Step 3 of the source. -/
def tightenSymbols (input : List Char) : List Char :=
  subAround symCls (fun c => [c]) input

/-- Step 4 of the source: tighten around "(", ")", "[", "]" and the braces,
one re.sub per character, in source order. -/
def tightenBrackets (input : List Char) : List Char :=
  (str "()[]" ++ [Char.ofNat 123, Char.ofNat 125]).foldl
    (fun acc b => subAround (fun c => c == b) (fun c => [c]) acc) input

/-- Scanner for a `re.sub(r"CLS+", r, s)` pass collapsing runs of a class to a
single replacement character. -/
def collapseGo (cls : Char → Bool) (r : Char) : Bool → List Char → List Char
  | _, [] => []
  | inRun, c :: rest =>
    if cls c then
      if inRun then collapseGo cls r true rest else r :: collapseGo cls r true rest
    else c :: collapseGo cls r false rest

/-- One `re.sub(r"CLS+", r, s)` pass. -/
def collapseRun (cls : Char → Bool) (r : Char) (input : List Char) : List Char :=
  collapseGo cls r false input

/-- Step 5 of the source: `re.sub(r"[ \t]+", " ", s)`. -/
def collapseSpaceTab (input : List Char) : List Char :=
  collapseRun (fun c => c == ' ' || c == '\t') ' ' input

/-- The operator class of the re-spacing step. -/
def opCls (c : Char) : Bool :=
  c == '+' || c == '-' || c == '*' || c == '/' || c == '%' || c == '=' ||
    c == '&' || c == '|' || c == '^' || c == '<' || c == '>'

/-- The re-spacing step: `re.sub(r"\s*([+\-*/%=&|^<>])\s*", r" \1 ", s)`. -/
def respaceOperators (input : List Char) : List Char :=
  subAround opCls (fun c => [' ', c, ' ']) input

/-- `re.sub(r"\s+", " ", s)`. -/
def collapseWhitespace (input : List Char) : List Char :=
  collapseRun isSpace ' ' input

/-- Scanner for `re.sub(r"\s*([.,?!])", r"\1", s)`: whitespace is dropped only
when the run is followed by one of the four punctuation characters. -/
def dropWsBeforeGo : List Char → List Char → List Char
  | pending, [] => pending.reverse
  | pending, c :: rest =>
    if isSpace c then dropWsBeforeGo (c :: pending) rest
    else if c == '.' || c == ',' || c == '?' || c == '!' then
      c :: dropWsBeforeGo [] rest
    else pending.reverse ++ c :: dropWsBeforeGo [] rest

/-- `re.sub(r"\s*([.,?!])", r"\1", s)`. -/
def dropWsBefore (input : List Char) : List Char := dropWsBeforeGo [] input

/-- `normalize_pronounced_punctuation` from SpeechToText_Python.py: the full
ordered pipeline, ending with the two strip() calls of the source. -/
def normalize_pronounced_punctuation (t : List Char) : List Char :=
  trim (trim (dropWsBefore (collapseWhitespace (respaceOperators
    (collapseSpaceTab (tightenBrackets (tightenSymbols
      (applyPunctPatterns (applyExtPatterns t)))))))))

/-! ## WebsiteResolver: `openweb` (Web_Open.py)

The website dictionary and the SequenceMatcher similarity ratio are external
collaborators (the dictionary lives in Data/Web_Data.py, outside the
text-processing core; the ratio is a pure primitive of difflib); both are
parameters of the embedding.  Console prompts are modelled by a list of
operator answers consumed in order, and the possibly-failing log append by a
Bool saying whether the write raises. -/

/-- Python str.split() with no argument: split on whitespace runs, dropping
empty fragments. -/
def splitWsGo : List Char → List Char → List (List Char)
  | acc, [] => if acc = [] then [] else [acc.reverse]
  | acc, c :: rest =>
    if isSpace c then
      if acc = [] then splitWsGo [] rest else acc.reverse :: splitWsGo [] rest
    else splitWsGo (c :: acc) rest

/-- Python text.split(). -/
def splitWs (s : List Char) : List (List Char) := splitWsGo [] s

/-- Dictionary lookup `websites[name]` / `name in websites`. -/
def lookupSite (websites : List (List Char × List Char)) (name : List Char) :
    Option (List Char) :=
  (websites.find? fun kv => kv.1 == name).map (·.2)

/-- Stable insertion into a list sorted by descending score (equal scores keep
insertion order, as Python's stable sort does). -/
def insertDesc (a : List Char × Rat) :
    List (List Char × Rat) → List (List Char × Rat)
  | [] => [a]
  | b :: rest => if b.2 < a.2 then a :: b :: rest else b :: insertDesc a rest

/-- `get_candidates(name)` with the default min_score=0.82 and max_results=5:
score every key, keep scores ≥ 0.82, sort descending by score (stable), cap
at 5.  `sim` is the SequenceMatcher ratio. -/
def get_candidates (sim : List Char → List Char → Rat)
    (websites : List (List Char × List Char)) (name : List Char) :
    List (List Char × Rat) :=
  ((((websites.map fun kv => (kv.1, sim name kv.1)).filter
      fun p => (82 : Rat) / 100 ≤ p.2).foldl
        (fun acc a => insertDesc a acc) []).take 5)

/-- Pop the next operator answer (an exhausted list behaves as empty input). -/
def nextAns : List (List Char) → List Char × List (List Char)
  | [] => ([], [])
  | a :: rest => (a, rest)

/-- Deduplicated append of a url to (urls_to_open, opened_urls). -/
def addUrl (urls opened : List (List Char)) (url : List Char) :
    List (List Char) × List (List Char) :=
  if opened.contains url then (urls, opened) else (urls ++ [url], opened ++ [url])

/-- One iteration of the word loop of `openweb`: state is
(urls_to_open, opened_urls, remaining operator answers). -/
def procWord (sim : List Char → List Char → Rat)
    (websites : List (List Char × List Char))
    (st : List (List Char) × List (List Char) × List (List Char))
    (word : List Char) :
    List (List Char) × List (List Char) × List (List Char) :=
  let urls := st.1
  let opened := st.2.1
  let answers := st.2.2
  let name := normalize_word word
  match lookupSite websites name with
  | some url =>
    let p := addUrl urls opened url
    (p.1, p.2, answers)
  | none =>
    match get_candidates sim websites name with
    | [] => (urls, opened, answers)
    | [cand] =>
      let an := nextAns answers
      let ans := trim (an.1.map Char.toLower)
      if ans = str "y" then
        let p := addUrl urls opened ((lookupSite websites cand.1).getD [])
        (p.1, p.2, an.2)
      else (urls, opened, an.2)
    | cand1 :: cand2 :: more =>
      let cands := cand1 :: cand2 :: more
      let an := nextAns answers
      let choice := trim (an.1.map Char.toLower)
      if choice = str "n" ∨ choice = [] then (urls, opened, an.2)
      else if choice = str "a" then
        let p := cands.foldl
          (fun (p : List (List Char) × List (List Char)) cand =>
            addUrl p.1 p.2 ((lookupSite websites cand.1).getD [])) (urls, opened)
        (p.1, p.2, an.2)
      else if !choice.isEmpty && choice.all Char.isDigit then
        let idx := choice.foldl (fun n c => 10 * n + (c.toNat - 48)) 0
        if 1 ≤ idx ∧ idx ≤ cands.length then
          let p := addUrl urls opened
            ((lookupSite websites (cands.getD (idx - 1) ([], 0)).1).getD [])
          (p.1, p.2, an.2)
        else (urls, opened, an.2)
      else (urls, opened, an.2)

/-- The pure website-resolution part of `openweb`: the ordered, deduplicated
list of urls passed to webbrowser.open. -/
def openwebResolve (sim : List Char → List Char → Rat)
    (websites : List (List Char × List Char)) (answers : List (List Char))
    (text : List Char) : List (List Char) :=
  ((splitWs text).foldl (procWord sim websites) ([], [], answers)).1

/-- `log_to_file(message, status)`: the try/except makes it total; `ok` says
whether the file append raises.  Returns (lines appended, console error
messages) — on failure nothing is appended and the error is printed. -/
def logToFile (ok : Bool) (ts msg : List Char) (status : Option Bool) :
    List (List Char) × List (List Char) :=
  if ok then ([logLine ts msg status], [])
  else ([], [str "[LOG ERROR] There is a problem writing to input.txt"])

/-- `openweb(text)`: resolve urls, open them, then log with the success flag.
Returns (urls opened, (log lines appended, console error messages)). -/
def openweb (sim : List Char → List Char → Rat)
    (websites : List (List Char × List Char)) (answers : List (List Char))
    (logOk : Bool) (ts text : List Char) :
    List (List Char) × (List (List Char) × List (List Char)) :=
  let urls := openwebResolve sim websites answers text
  (urls, logToFile logOk ts text (some (!urls.isEmpty)))

/-! ## Lemmas about strip/trim -/

lemma mem_dropWhile {p : Char → Bool} {l : List Char} {c : Char}
    (h : c ∈ l.dropWhile p) : c ∈ l :=
  (List.dropWhile_sublist p).subset h

lemma mem_stripBy {p : Char → Bool} {s : List Char} {c : Char}
    (h : c ∈ stripBy p s) : c ∈ s := by
  unfold stripBy at h
  rw [List.mem_reverse] at h
  have h2 := mem_dropWhile h
  rw [List.mem_reverse] at h2
  exact mem_dropWhile h2

lemma mem_trim {s : List Char} {c : Char} (h : c ∈ trim s) : c ∈ s := mem_stripBy h

lemma head?_dropWhile_not {p : Char → Bool} :
    ∀ {l : List Char} {c : Char}, (l.dropWhile p).head? = some c → p c = false := by
  intro l
  induction l with
  | nil => intro c h; simp at h
  | cons a t ih =>
    intro c h
    by_cases ha : p a
    · rw [List.dropWhile_cons_of_pos ha] at h
      exact ih h
    · rw [List.dropWhile_cons_of_neg ha] at h
      simp at h
      subst h
      simpa using ha

lemma getLast?_dropWhile_ne_nil {p : Char → Bool} :
    ∀ {l : List Char}, l.dropWhile p ≠ [] → (l.dropWhile p).getLast? = l.getLast? := by
  intro l
  induction l with
  | nil => intro h; simp at h
  | cons a t ih =>
    intro h
    by_cases ha : p a
    · rw [List.dropWhile_cons_of_pos ha] at h ⊢
      have ht : t ≠ [] := by
        intro he
        subst he
        simp at h
      rcases List.exists_cons_of_ne_nil ht with ⟨b, t2, rfl⟩
      rw [List.getLast?_cons_cons]
      exact ih h
    · rw [List.dropWhile_cons_of_neg ha]

lemma dropWhile_eq_nil_all {p : Char → Bool} :
    ∀ {l : List Char}, (∀ c ∈ l, p c = true) → l.dropWhile p = [] := by
  intro l
  induction l with
  | nil => intro _; rfl
  | cons a t ih =>
    intro h
    rw [List.dropWhile_cons_of_pos (h a (by simp))]
    exact ih fun c hc => h c (by simp [hc])

lemma mem_takeWhile_sat {p : Char → Bool} :
    ∀ {l : List Char} {c : Char}, c ∈ l.takeWhile p → p c = true := by
  intro l
  induction l with
  | nil => intro c h; simp at h
  | cons a t ih =>
    intro c h
    by_cases ha : p a
    · rw [List.takeWhile_cons_of_pos ha] at h
      rcases List.mem_cons.mp h with rfl | h2
      · exact ha
      · exact ih h2
    · rw [List.takeWhile_cons_of_neg ha] at h
      simp at h

lemma dropWhile_eq_self_of_head {p : Char → Bool} {l : List Char}
    (h : ∀ c, l.head? = some c → p c = false) : l.dropWhile p = l := by
  cases l with
  | nil => rfl
  | cons a t =>
    have ha := h a rfl
    rw [List.dropWhile_cons_of_neg (by simp [ha])]

lemma head_of_dropWhile_eq_self {p : Char → Bool} {l : List Char}
    (h : l.dropWhile p = l) : ∀ c, l.head? = some c → p c = false := by
  intro c hc
  cases l with
  | nil => simp at hc
  | cons a t =>
    simp at hc
    subst hc
    by_contra hp
    rw [List.dropWhile_cons_of_pos (by simpa using hp)] at h
    have hle : (t.dropWhile p).length ≤ t.length := (List.dropWhile_sublist p).length_le
    rw [h] at hle
    simp at hle

lemma trim_eq_self_of_conds {s : List Char}
    (h1 : ∀ c, s.head? = some c → isSpace c = false)
    (h2 : ∀ c, s.getLast? = some c → isSpace c = false) : trim s = s := by
  unfold trim stripBy
  rw [dropWhile_eq_self_of_head h1]
  rw [dropWhile_eq_self_of_head (by
    intro c hc
    rw [List.head?_reverse] at hc
    exact h2 c hc)]
  exact List.reverse_reverse s

lemma conds_of_trim_eq_self {s : List Char} (h : trim s = s) :
    (∀ c, s.head? = some c → isSpace c = false) ∧
      (∀ c, s.getLast? = some c → isSpace c = false) := by
  have hlen1 : (s.dropWhile isSpace).length ≤ s.length :=
    (List.dropWhile_sublist isSpace).length_le
  have hlen2 : (trim s).length ≤ (s.dropWhile isSpace).length := by
    unfold trim stripBy
    rw [List.length_reverse]
    calc ((s.dropWhile isSpace).reverse.dropWhile isSpace).length
        ≤ (s.dropWhile isSpace).reverse.length := (List.dropWhile_sublist isSpace).length_le
      _ = (s.dropWhile isSpace).length := List.length_reverse _
  have hlen3 : (trim s).length = s.length := by rw [h]
  have e1 : s.dropWhile isSpace = s :=
    (List.dropWhile_sublist isSpace).eq_of_length (by omega)
  have e2 : s.reverse.dropWhile isSpace = s.reverse := by
    have h2 : trim s = (s.reverse.dropWhile isSpace).reverse := by
      unfold trim stripBy
      rw [e1]
    rw [h] at h2
    have h3 := congrArg List.reverse h2
    rw [List.reverse_reverse] at h3
    exact h3.symm
  constructor
  · exact head_of_dropWhile_eq_self e1
  · intro c hc
    have := head_of_dropWhile_eq_self e2 c (by rw [List.head?_reverse]; exact hc)
    exact this

lemma trim_idem (s : List Char) : trim (trim s) = trim s := by
  apply trim_eq_self_of_conds
  · intro c hc
    unfold trim stripBy at hc
    rw [List.head?_reverse] at hc
    by_cases hv : (s.dropWhile isSpace).reverse.dropWhile isSpace = []
    · rw [hv] at hc
      simp at hc
    · rw [getLast?_dropWhile_ne_nil hv, List.getLast?_reverse] at hc
      exact head?_dropWhile_not hc
  · intro c hc
    unfold trim stripBy at hc
    rw [List.getLast?_reverse] at hc
    exact head?_dropWhile_not hc

lemma trim_cons_space {c : Char} (hc : isSpace c = true) :
    ∀ x : List Char, trim (c :: x) = trim x := by
  intro x
  unfold trim stripBy
  rw [List.dropWhile_cons_of_pos hc]

lemma trim_append_ws {w : List Char} (hw : ∀ c ∈ w, isSpace c = true)
    (a : List Char) : trim (a ++ w) = trim a := by
  unfold trim stripBy
  rw [List.dropWhile_append]
  by_cases he : (a.dropWhile isSpace).isEmpty
  · rw [if_pos he]
    rw [dropWhile_eq_nil_all hw]
    have ha : a.dropWhile isSpace = [] := by simpa using he
    rw [ha]
  · rw [if_neg he]
    rw [List.reverse_append]
    rw [List.dropWhile_append_of_pos (by
      intro c hcmem
      rw [List.mem_reverse] at hcmem
      exact hw c hcmem)]

/-! ## Lemmas about splitDot, joinDot and clean -/

lemma splitDotF_cons_dot (x : List Char) :
    splitDotF ('.' :: x) = ([], (splitDotF x).1 :: (splitDotF x).2) := by
  simp [splitDotF]

lemma splitDotF_cons_ne {c : Char} (hc : ¬ c = '.') (x : List Char) :
    splitDotF (c :: x) = (c :: (splitDotF x).1, (splitDotF x).2) := by
  simp [splitDotF, hc]

lemma splitDotF_dotfree (s : List Char) :
    '.' ∉ (splitDotF s).1 ∧ ∀ f ∈ (splitDotF s).2, '.' ∉ f := by
  induction s with
  | nil => simp [splitDotF]
  | cons c rest ih =>
    by_cases hc : c = '.'
    · subst hc
      rw [splitDotF_cons_dot]
      refine ⟨by simp, ?_⟩
      intro f hf
      rcases List.mem_cons.mp hf with rfl | h2
      · exact ih.1
      · exact ih.2 f h2
    · rw [splitDotF_cons_ne hc]
      refine ⟨?_, ih.2⟩
      intro hmem
      rcases List.mem_cons.mp hmem with h | h
      · exact hc h.symm
      · exact ih.1 h

lemma splitDot_dotfree {u : List Char} : ∀ f ∈ splitDot u, '.' ∉ f := by
  intro f hf
  rcases List.mem_cons.mp hf with rfl | h
  · exact (splitDotF_dotfree u).1
  · exact (splitDotF_dotfree u).2 f h

lemma splitDotF_of_dotfree : ∀ {w : List Char}, '.' ∉ w → splitDotF w = (w, []) := by
  intro w
  induction w with
  | nil => intro _; rfl
  | cons c rest ih =>
    intro h
    have hc : ¬ c = '.' := fun he => h (by simp [he])
    rw [splitDotF_cons_ne hc, ih fun hm => h (by simp [hm])]

lemma splitDotF_append_dot : ∀ {g : List Char}, '.' ∉ g → ∀ w : List Char,
    splitDotF (g ++ '.' :: w) = (g, splitDot w) := by
  intro g
  induction g with
  | nil =>
    intro _ w
    rw [List.nil_append, splitDotF_cons_dot]
    rfl
  | cons c g2 ih =>
    intro h w
    have hc : ¬ c = '.' := fun he => h (by simp [he])
    rw [List.cons_append, splitDotF_cons_ne hc, ih (fun hm => h (by simp [hm])) w]

/-- Apply f to the last element of a list (identity on the empty list). -/
def modifyLastF (f : List Char → List Char) : List (List Char) → List (List Char)
  | [] => []
  | [a] => [f a]
  | a :: b :: rest => a :: modifyLastF f (b :: rest)

/-- Append w to the last fragment of a (first fragment, rest) pair. -/
def appendLastF (w : List Char) :
    List Char × List (List Char) → List Char × List (List Char)
  | (h, []) => (h ++ w, [])
  | (h, t1 :: ts) => (h, modifyLastF (fun x => x ++ w) (t1 :: ts))

lemma appendLastF_cons (w : List Char) (p : List Char × List (List Char)) :
    (appendLastF w p).1 :: (appendLastF w p).2 =
      modifyLastF (fun x => x ++ w) (p.1 :: p.2) := by
  rcases p with ⟨h, t⟩
  cases t with
  | nil => rfl
  | cons t1 ts => rfl

lemma splitDotF_append_dotfree {w : List Char} (hw : '.' ∉ w) :
    ∀ y : List Char, splitDotF (y ++ w) = appendLastF w (splitDotF y) := by
  intro y
  induction y with
  | nil =>
    rw [List.nil_append, splitDotF_of_dotfree hw]
    rfl
  | cons c y2 ih =>
    by_cases hc : c = '.'
    · subst hc
      rw [List.cons_append, splitDotF_cons_dot, splitDotF_cons_dot, ih,
        appendLastF_cons]
      rfl
    · rw [List.cons_append, splitDotF_cons_ne hc, splitDotF_cons_ne hc, ih]
      rcases hsp : splitDotF y2 with ⟨h1, t⟩
      cases t with
      | nil => simp [appendLastF]
      | cons t1 ts => simp [appendLastF]

lemma clean_cons (x : List Char) (xs : List (List Char)) :
    clean (x :: xs) =
      if (trim x).isEmpty then clean xs else trim x :: clean xs := by
  simp only [clean, List.map_cons, List.filter_cons]
  by_cases h : (trim x).isEmpty
  · simp [h]
  · simp [h]

lemma clean_modifyLast_ws {w : List Char} (hw : ∀ c ∈ w, isSpace c = true) :
    ∀ l : List (List Char), clean (modifyLastF (fun x => x ++ w) l) = clean l := by
  intro l
  induction l with
  | nil => rfl
  | cons a t ih =>
    cases t with
    | nil =>
      show clean [a ++ w] = clean [a]
      rw [clean_cons, clean_cons, trim_append_ws hw]
    | cons b t2 =>
      show clean (a :: modifyLastF _ (b :: t2)) = clean (a :: b :: t2)
      rw [clean_cons, clean_cons, ih]

lemma clean_splitDot_append_ws {w : List Char} (hd : '.' ∉ w)
    (hw : ∀ c ∈ w, isSpace c = true) (y : List Char) :
    clean (splitDot (y ++ w)) = clean (splitDot y) := by
  unfold splitDot
  rw [splitDotF_append_dotfree hd y, appendLastF_cons]
  exact clean_modifyLast_ws hw _

lemma clean_splitDot_cons_space {c : Char} (hc : isSpace c = true) (x : List Char) :
    clean (splitDot (c :: x)) = clean (splitDot x) := by
  have hcd : ¬ c = '.' := by
    intro he
    subst he
    exact absurd hc (by decide)
  unfold splitDot
  rw [splitDotF_cons_ne hcd, clean_cons, clean_cons, trim_cons_space hc]

lemma clean_splitDot_dropWhile (u : List Char) :
    clean (splitDot (u.dropWhile isSpace)) = clean (splitDot u) := by
  induction u with
  | nil => rfl
  | cons c rest ih =>
    by_cases hc : isSpace c
    · rw [List.dropWhile_cons_of_pos hc, ih, clean_splitDot_cons_space hc]
    · rw [List.dropWhile_cons_of_neg hc]

lemma clean_splitDot_trim (u : List Char) :
    clean (splitDot (trim u)) = clean (splitDot u) := by
  unfold trim stripBy
  have hws : ∀ c ∈ ((u.dropWhile isSpace).reverse.takeWhile isSpace).reverse,
      isSpace c = true := by
    intro c hcmem
    rw [List.mem_reverse] at hcmem
    exact mem_takeWhile_sat hcmem
  have hdf : '.' ∉ ((u.dropWhile isSpace).reverse.takeWhile isSpace).reverse := by
    intro hmem
    exact absurd (hws '.' hmem) (by decide)
  have hsplit : ((u.dropWhile isSpace).reverse.dropWhile isSpace).reverse ++
      ((u.dropWhile isSpace).reverse.takeWhile isSpace).reverse = u.dropWhile isSpace := by
    rw [← List.reverse_append, List.takeWhile_append_dropWhile, List.reverse_reverse]
  calc clean (splitDot ((u.dropWhile isSpace).reverse.dropWhile isSpace).reverse)
      = clean (splitDot (((u.dropWhile isSpace).reverse.dropWhile isSpace).reverse ++
          ((u.dropWhile isSpace).reverse.takeWhile isSpace).reverse)) :=
        (clean_splitDot_append_ws hdf hws _).symm
    _ = clean (splitDot (u.dropWhile isSpace)) := by rw [hsplit]
    _ = clean (splitDot u) := clean_splitDot_dropWhile u

lemma isSpace_qbChar (c : Char) :
    isSpace (if c = '?' then '.' else if c = '!' then '.' else c) = isSpace c := by
  by_cases h1 : c = '?'
  · subst h1; decide
  · by_cases h2 : c = '!'
    · subst h2; decide
    · simp [h1, h2]

lemma dropWhile_isSpace_replaceQB (l : List Char) :
    (replaceQB l).dropWhile isSpace = replaceQB (l.dropWhile isSpace) := by
  unfold replaceQB
  have hcomp : (isSpace ∘ fun c => if c = '?' then '.' else if c = '!' then '.' else c)
      = isSpace := by
    funext c
    simp only [Function.comp_apply]
    exact isSpace_qbChar c
  rw [List.dropWhile_map, hcomp]

lemma replaceQB_reverse (l : List Char) :
    replaceQB l.reverse = (replaceQB l).reverse := by
  unfold replaceQB
  exact List.map_reverse _ _

lemma replaceQB_trim (s : List Char) : replaceQB (trim s) = trim (replaceQB s) := by
  unfold trim stripBy
  rw [dropWhile_isSpace_replaceQB, ← replaceQB_reverse, dropWhile_isSpace_replaceQB,
    ← replaceQB_reverse]

lemma sentencesOf_eq_trim (text : List Char) :
    sentencesOf text = clean (splitDot (replaceQB (trim text))) := by
  unfold sentencesOf
  rw [replaceQB_trim, clean_splitDot_trim]

/-! ## Lemmas about joinDot and the chunk accumulator -/

/-- A cleaned sentence: non-empty, fully stripped, and free of periods. -/
def goodS (s : List Char) : Prop := s ≠ [] ∧ trim s = s ∧ '.' ∉ s

lemma goodS_of_mem_clean {l : List (List Char)} (hdf : ∀ f ∈ l, '.' ∉ f) :
    ∀ s ∈ clean l, goodS s := by
  intro s hs
  unfold clean at hs
  rw [List.mem_filter] at hs
  obtain ⟨hmap, hne⟩ := hs
  rw [List.mem_map] at hmap
  obtain ⟨f, hf, rfl⟩ := hmap
  refine ⟨by simpa using hne, trim_idem f, ?_⟩
  intro hmem
  exact hdf f hf (mem_trim hmem)

lemma goodS_sentencesOf (text : List Char) : ∀ s ∈ sentencesOf text, goodS s :=
  goodS_of_mem_clean fun f hf => splitDot_dotfree f hf

lemma joinDot_ne_nil {gs : List (List Char)} (h : ∀ g ∈ gs, g ≠ [])
    (hne : gs ≠ []) : joinDot gs ≠ [] := by
  cases gs with
  | nil => exact absurd rfl hne
  | cons g rest =>
    cases rest with
    | nil => exact h g (by simp)
    | cons g2 r2 =>
      show g ++ '.' :: ' ' :: joinDot (g2 :: r2) ≠ []
      simp

lemma head?_joinDot {g : List Char} (hg : g ≠ []) (rest : List (List Char)) :
    (joinDot (g :: rest)).head? = g.head? := by
  cases rest with
  | nil => rfl
  | cons g2 r2 =>
    show (g ++ '.' :: ' ' :: joinDot (g2 :: r2)).head? = g.head?
    rw [List.head?_append]
    cases hh : g.head? with
    | none => exact absurd (by simpa using hh) hg
    | some c => rfl

lemma joinDot_getLast_nonspace :
    ∀ {gs : List (List Char)}, (∀ g ∈ gs, g ≠ [] ∧ trim g = g) →
      ∀ c, (joinDot gs).getLast? = some c → isSpace c = false := by
  intro gs
  induction gs with
  | nil => intro _ c hc; simp [joinDot] at hc
  | cons g rest ih =>
    intro h c hc
    cases rest with
    | nil => exact (conds_of_trim_eq_self (h g (by simp)).2).2 c hc
    | cons g2 r2 =>
      have hne : joinDot (g2 :: r2) ≠ [] :=
        joinDot_ne_nil (fun x hx => (h x (by simp [hx])).1) (by simp)
      rcases List.exists_cons_of_ne_nil hne with ⟨j0, jt, hj⟩
      rw [show joinDot (g :: g2 :: r2) = g ++ '.' :: ' ' :: joinDot (g2 :: r2) from rfl,
        List.getLast?_append, hj, List.getLast?_cons_cons, List.getLast?_cons_cons] at hc
      cases hlast : (j0 :: jt).getLast? with
      | none => simp at hlast
      | some x =>
        rw [hlast, Option.or_some] at hc
        apply ih (fun y hy => h y (by simp [hy])) c
        rw [hj, hlast, hc]

lemma joinDot_trimmed {gs : List (List Char)}
    (h : ∀ g ∈ gs, g ≠ [] ∧ trim g = g) : trim (joinDot gs) = joinDot gs := by
  cases gs with
  | nil => rfl
  | cons g rest =>
    apply trim_eq_self_of_conds
    · intro c hc
      rw [head?_joinDot (h g (by simp)).1] at hc
      exact (conds_of_trim_eq_self (h g (by simp)).2).1 c hc
    · exact joinDot_getLast_nonspace h

lemma fragsOf_seal :
    ∀ {gs : List (List Char)}, gs ≠ [] → (∀ g ∈ gs, goodS g) →
      fragsOf (joinDot gs ++ ['.']) = gs := by
  intro gs
  induction gs with
  | nil => intro h _; exact absurd rfl h
  | cons g rest ih =>
    intro _ h
    have hg := h g (by simp)
    cases rest with
    | nil =>
      show fragsOf (g ++ ['.']) = [g]
      unfold fragsOf splitDot
      rw [splitDotF_append_dot hg.2.2]
      show clean (g :: splitDot []) = [g]
      rw [show splitDot [] = [[]] from rfl, clean_cons, hg.2.1]
      rw [if_neg (by simpa using hg.1)]
      rw [show clean [[]] = [] from rfl]
    | cons g2 r2 =>
      show fragsOf ((g ++ '.' :: ' ' :: joinDot (g2 :: r2)) ++ ['.']) = g :: g2 :: r2
      rw [List.append_assoc]
      simp only [List.cons_append]
      unfold fragsOf splitDot
      rw [splitDotF_append_dot hg.2.2]
      show clean (g :: splitDot (' ' :: (joinDot (g2 :: r2) ++ ['.']))) = g :: g2 :: r2
      rw [clean_cons, hg.2.1, if_neg (by simpa using hg.1),
        clean_splitDot_cons_space (by decide)]
      have := ih (by simp) fun x hx => h x (by simp [hx])
      unfold fragsOf at this
      rw [this]

/-! ## The chunk-loop invariant -/

lemma foldl_chunkStep_clean (m : Nat) :
    ∀ (l : List (List Char)) (st : List (List Char) × List (List Char)),
      l.foldl (chunkStep m) st = (clean l).foldl (cleanStep m) st := by
  intro l
  induction l with
  | nil => intro st; rfl
  | cons f l2 ih =>
    intro st
    rw [List.foldl_cons, clean_cons]
    by_cases h : (trim f).isEmpty
    · rw [if_pos h]
      have hst : chunkStep m st f = st := by
        unfold chunkStep
        rw [if_pos (by simpa using h)]
      rw [hst, ih]
    · rw [if_neg h, List.foldl_cons]
      have hst : chunkStep m st f = cleanStep m st (trim f) := by
        unfold chunkStep
        rw [if_neg (by simpa using h)]
      rw [hst, ih]

lemma cleanFold_master (m : Nat) (S : List (List Char)) :
    ∀ (l : List (List Char)) (st : List (List Char) × List (List Char)),
      (∀ s ∈ l, goodS s ∧ s ∈ S) →
      (∀ s ∈ st.2, goodS s ∧ s ∈ S) →
      (st.2 = [] ∨ (joinDot st.2).length ≤ m ∨ ∃ s, st.2 = [s] ∧ m < s.length) →
      (∀ c ∈ st.1, c.length ≤ m + 1 ∨ ∃ s ∈ S, c = s ++ ['.'] ∧ m < s.length) →
      (∀ s ∈ (l.foldl (cleanStep m) st).2, goodS s ∧ s ∈ S) ∧
      ((l.foldl (cleanStep m) st).2 = [] ∨
        (joinDot (l.foldl (cleanStep m) st).2).length ≤ m ∨
        ∃ s, (l.foldl (cleanStep m) st).2 = [s] ∧ m < s.length) ∧
      (∀ c ∈ (l.foldl (cleanStep m) st).1,
        c.length ≤ m + 1 ∨ ∃ s ∈ S, c = s ++ ['.'] ∧ m < s.length) ∧
      (l.foldl (cleanStep m) st).1.flatMap fragsOf ++ (l.foldl (cleanStep m) st).2
        = st.1.flatMap fragsOf ++ st.2 ++ l := by
  intro l
  induction l with
  | nil =>
    intro st _ h2 h3 h4
    exact ⟨h2, h3, h4, by simp⟩
  | cons s l2 ih =>
    intro st hl h2 h3 h4
    have hs : goodS s ∧ s ∈ S := hl s (by simp)
    have hl2 : ∀ x ∈ l2, goodS x ∧ x ∈ S := fun x hx => hl x (by simp [hx])
    rw [List.foldl_cons]
    by_cases hcand : (trim (joinDot (st.2 ++ [s]))).length ≤ m
    · -- the sentence fits: accept it into the current accumulation
      have hgoods2 : ∀ x ∈ st.2 ++ [s], goodS x ∧ x ∈ S := by
        intro x hx
        rcases List.mem_append.mp hx with h | h
        · exact h2 x h
        · simp at h
          subst h
          exact hs
      have hstep : cleanStep m st s = (st.1, st.2 ++ [s]) := by
        unfold cleanStep
        rw [if_pos hcand]
      rw [hstep]
      have hJ : (joinDot (st.2 ++ [s])).length ≤ m := by
        rw [← joinDot_trimmed fun g hg => ⟨(hgoods2 g hg).1.1, (hgoods2 g hg).1.2.1⟩]
        exact hcand
      have hrec := ih (st.1, st.2 ++ [s]) hl2 hgoods2 (Or.inr (Or.inl hJ)) h4
      refine ⟨hrec.1, hrec.2.1, hrec.2.2.1, ?_⟩
      rw [hrec.2.2.2]
      simp
    · by_cases hemp : st.2 = []
      · -- over-long sentence with empty accumulation: restart from s alone
        have hstep : cleanStep m st s = (st.1, [s]) := by
          unfold cleanStep
          rw [if_neg hcand, if_pos hemp]
        rw [hstep]
        have hJs : m < s.length := by
          rw [hemp] at hcand
          have he : trim (joinDot ([] ++ [s])) = s := by
            rw [List.nil_append]
            exact hs.1.2.1
          rw [he] at hcand
          omega
        have hg1 : ∀ x ∈ [s], goodS x ∧ x ∈ S := by
          intro x hx
          simp at hx
          subst hx
          exact hs
        have hrec := ih (st.1, [s]) hl2 hg1 (Or.inr (Or.inr ⟨s, rfl, hJs⟩)) h4
        refine ⟨hrec.1, hrec.2.1, hrec.2.2.1, ?_⟩
        rw [hrec.2.2.2, hemp]
        simp
      · -- seal the current accumulation and restart from s
        have hstep : cleanStep m st s = (st.1 ++ [joinDot st.2 ++ ['.']], [s]) := by
          unfold cleanStep
          rw [if_neg hcand, if_neg hemp]
        rw [hstep]
        have hg1 : ∀ x ∈ [s], goodS x ∧ x ∈ S := by
          intro x hx
          simp at hx
          subst hx
          exact hs
        have hJ1 : ([s] : List (List Char)) = [] ∨ (joinDot [s]).length ≤ m ∨
            ∃ t, [s] = [t] ∧ m < t.length := by
          by_cases hsl : s.length ≤ m
          · exact Or.inr (Or.inl hsl)
          · exact Or.inr (Or.inr ⟨s, rfl, by omega⟩)
        have hQseal : (joinDot st.2 ++ ['.']).length ≤ m + 1 ∨
            ∃ t ∈ S, joinDot st.2 ++ ['.'] = t ++ ['.'] ∧ m < t.length := by
          rcases h3 with hE | hLen | ⟨t, ht, htl⟩
          · exact absurd hE hemp
          · left
            rw [List.length_append]
            simpa using Nat.add_le_add_right hLen 1
          · right
            exact ⟨t, (h2 t (by rw [ht]; simp)).2, by rw [ht]; rfl, htl⟩
        have hQ2 : ∀ c ∈ st.1 ++ [joinDot st.2 ++ ['.']],
            c.length ≤ m + 1 ∨ ∃ t ∈ S, c = t ++ ['.'] ∧ m < t.length := by
          intro c hc
          rcases List.mem_append.mp hc with h | h
          · exact h4 c h
          · simp at h
            subst h
            exact hQseal
        have hrec := ih (st.1 ++ [joinDot st.2 ++ ['.']], [s]) hl2 hg1 hJ1 hQ2
        refine ⟨hrec.1, hrec.2.1, hrec.2.2.1, ?_⟩
        rw [hrec.2.2.2, List.flatMap_append]
        have hseal : fragsOf (joinDot st.2 ++ ['.']) = st.2 :=
          fragsOf_seal hemp fun g hg => (h2 g hg).1
        simp [hseal]

lemma chunkFold_eq (text : List Char) (m : Nat) :
    chunkFold text m = (sentencesOf text).foldl (cleanStep m) ([], []) := by
  unfold chunkFold
  rw [foldl_chunkStep_clean, ← sentencesOf_eq_trim]

lemma chunkFold_spec (text : List Char) (m : Nat) :
    (∀ s ∈ (chunkFold text m).2, goodS s ∧ s ∈ sentencesOf text) ∧
    ((chunkFold text m).2 = [] ∨ (joinDot (chunkFold text m).2).length ≤ m ∨
      ∃ s, (chunkFold text m).2 = [s] ∧ m < s.length) ∧
    (∀ c ∈ (chunkFold text m).1, c.length ≤ m + 1 ∨
      ∃ s ∈ sentencesOf text, c = s ++ ['.'] ∧ m < s.length) ∧
    (chunkFold text m).1.flatMap fragsOf ++ (chunkFold text m).2
      = sentencesOf text := by
  rw [chunkFold_eq]
  have hsent : ∀ s ∈ sentencesOf text, goodS s ∧ s ∈ sentencesOf text :=
    fun s hs => ⟨goodS_sentencesOf text s hs, hs⟩
  have hrec := cleanFold_master m (sentencesOf text) (sentencesOf text) ([], [])
    hsent (by simp) (Or.inl rfl) (by simp)
  refine ⟨hrec.1, hrec.2.1, hrec.2.2.1, ?_⟩
  rw [hrec.2.2.2]
  simp

/-! ## Lemmas about the final normalizer passes (for the no-newline property) -/

lemma mem_collapseGo {cls : Char → Bool} {r : Char} :
    ∀ (l : List Char) (b : Bool) (c : Char), c ∈ collapseGo cls r b l →
      c = r ∨ (c ∈ l ∧ cls c = false) := by
  intro l
  induction l with
  | nil =>
    intro b c h
    simp [collapseGo] at h
  | cons a t ih =>
    intro b c h
    unfold collapseGo at h
    by_cases ha : cls a
    · rw [if_pos ha] at h
      cases b with
      | true =>
        simp only [if_true] at h
        rcases ih true c h with h1 | h2
        · exact Or.inl h1
        · exact Or.inr ⟨by simp [h2.1], h2.2⟩
      | false =>
        simp only [Bool.false_eq_true, if_false] at h
        rcases List.mem_cons.mp h with rfl | h2
        · exact Or.inl rfl
        · rcases ih true c h2 with h3 | h4
          · exact Or.inl h3
          · exact Or.inr ⟨by simp [h4.1], h4.2⟩
    · rw [if_neg ha] at h
      rcases List.mem_cons.mp h with rfl | h2
      · exact Or.inr ⟨by simp, by simpa using ha⟩
      · rcases ih false c h2 with h3 | h4
        · exact Or.inl h3
        · exact Or.inr ⟨by simp [h4.1], h4.2⟩

lemma mem_dropWsBeforeGo :
    ∀ (l pending : List Char) (c : Char), c ∈ dropWsBeforeGo pending l →
      c ∈ pending ∨ c ∈ l := by
  intro l
  induction l with
  | nil =>
    intro pending c h
    unfold dropWsBeforeGo at h
    rw [List.mem_reverse] at h
    exact Or.inl h
  | cons a t ih =>
    intro pending c h
    unfold dropWsBeforeGo at h
    by_cases ha : isSpace a
    · rw [if_pos ha] at h
      rcases ih (a :: pending) c h with h1 | h2
      · rcases List.mem_cons.mp h1 with rfl | h3
        · exact Or.inr (by simp)
        · exact Or.inl h3
      · exact Or.inr (by simp [h2])
    · rw [if_neg ha] at h
      by_cases hcl : (a == '.' || a == ',' || a == '?' || a == '!') = true
      · rw [if_pos hcl] at h
        rcases List.mem_cons.mp h with rfl | h2
        · exact Or.inr (by simp)
        · rcases ih [] c h2 with h3 | h4
          · simp at h3
          · exact Or.inr (by simp [h4])
      · rw [if_neg hcl] at h
        rcases List.mem_append.mp h with h1 | h2
        · rw [List.mem_reverse] at h1
          exact Or.inl h1
        · rcases List.mem_cons.mp h2 with rfl | h3
          · exact Or.inr (by simp)
          · rcases ih [] c h3 with h4 | h5
            · simp at h4
            · exact Or.inr (by simp [h5])

/-! ## Decomposition of the TLD-stripping loop of normalize_word -/

lemma dropSuf_decomp (suf w : List Char) :
    ∃ t : List Char, (t = [] ∨ t = suf) ∧ w = dropSuf suf w ++ t := by
  unfold dropSuf
  by_cases h : suf.isSuffixOf w
  · rw [if_pos h]
    rw [List.isSuffixOf_iff_suffix] at h
    obtain ⟨t0, ht⟩ := h
    refine ⟨suf, Or.inr rfl, ?_⟩
    rw [← ht, List.length_append]
    have hlen : t0.length + suf.length - suf.length = t0.length := by omega
    rw [hlen, List.take_left]
  · rw [if_neg h]
    exact ⟨[], Or.inl rfl, by simp⟩

/-! ## Claim theorems -/

set_option maxHeartbeats 1000000 in
set_option maxRecDepth 200000 in
/-- Claim C1, counterexample: for text "abc. d" and max_len 3 the chunker
returns a chunk "abc." of length 4 > 3, although no single sentence of the
text exceeds 3 — the sealing period pushes the chunk over the limit, so the
claimed bound (length at most max_len unless a single sentence alone exceeds
it) is false. -/
theorem chunk_seal_exceeds_max_len_cex :
    ¬ ∀ c ∈ chunkText (str "abc. d") 3, c.length ≤ 3 ∨
      ∃ s ∈ sentencesOf (str "abc. d"), c = s ++ ['.'] ∧ 3 < s.length := by
  decide

/-- Claim C1 (amended): every chunk returned by _chunk_text(text, max_len) has
length at most max_len + 1 — the trailing period that seals a chunk can add one
character beyond max_len — unless the chunk is a single sentence that alone
exceeds max_len, emitted whole (with its trailing period) as its own chunk. -/
theorem chunk_length_le_succ_or_long_sentence (text : List Char) (maxLen : Nat) :
    ∀ c ∈ chunkText text maxLen, c.length ≤ maxLen + 1 ∨
      ∃ s ∈ sentencesOf text, c = s ++ ['.'] ∧ maxLen < s.length := by
  intro c hc
  unfold chunkText at hc
  by_cases h : (trim text).length ≤ maxLen
  · rw [if_pos h] at hc
    simp at hc
    subst hc
    left
    omega
  · rw [if_neg h] at hc
    obtain ⟨hgood, hJ, hQ, hflat⟩ := chunkFold_spec text maxLen
    by_cases h2 : (chunkFold text maxLen).2 = []
    · rw [if_pos h2] at hc
      exact hQ c hc
    · rw [if_neg h2] at hc
      rcases List.mem_append.mp hc with hin | hin
      · exact hQ c hin
      · simp at hin
        subst hin
        rcases hJ with hE | hLen | ⟨s, hs, hsl⟩
        · exact absurd hE h2
        · left
          rw [List.length_append]
          simpa using Nat.add_le_add_right hLen 1
        · right
          refine ⟨s, (hgood s (by rw [hs]; simp)).2, ?_, hsl⟩
          rw [hs]
          rfl

/-- Witness for the amended C1 bound at the chunk "abc." of
_chunk_text("abc. d", 3). -/
theorem chunk_length_le_succ_or_long_sentence_witness :
    (str "abc.").length ≤ 3 + 1 ∨
      ∃ s ∈ sentencesOf (str "abc. d"), str "abc." = s ++ ['.'] ∧ 3 < s.length :=
  chunk_length_le_succ_or_long_sentence (str "abc. d") 3 (str "abc.") (by decide)

/-- Claim C2, counterexample: normalize_word("a.in.com") returns "a", losing
both stacked suffixes, so the result is not the pre-TLD form minus at most
one suffix of the fixed list (which would keep "a.in"). -/
theorem normalize_word_two_suffixes_cex :
    normalize_word (str "a.in.com") = str "a" ∧
      ¬ ∃ extra ∈ [([] : List Char), str ".com", str ".in", str ".org", str ".net"],
        preTld (str "a.in.com") = normalize_word (str "a.in.com") ++ extra := by
  decide

/-- Claim C2 (amended): the TLD loop of normalize_word checks the suffixes
.com, .in, .org, .net once each in that fixed order, with no break, stripping
each one that matches at the time of its check; so the pre-TLD form of every
word equals the result followed by at most one copy of each suffix, stacked in
reverse check order (e.g. "a.in.com" loses both ".com" and ".in"). -/
theorem normalize_word_tld_decomp (w : List Char) :
    ∃ s1 s2 s3 s4 : List Char,
      (s1 = [] ∨ s1 = str ".com") ∧ (s2 = [] ∨ s2 = str ".in") ∧
      (s3 = [] ∨ s3 = str ".org") ∧ (s4 = [] ∨ s4 = str ".net") ∧
      preTld w = normalize_word w ++ s4 ++ s3 ++ s2 ++ s1 := by
  obtain ⟨s1, hs1, h1⟩ := dropSuf_decomp (str ".com") (preTld w)
  obtain ⟨s2, hs2, h2⟩ := dropSuf_decomp (str ".in") (dropSuf (str ".com") (preTld w))
  obtain ⟨s3, hs3, h3⟩ := dropSuf_decomp (str ".org")
    (dropSuf (str ".in") (dropSuf (str ".com") (preTld w)))
  obtain ⟨s4, hs4, h4⟩ := dropSuf_decomp (str ".net")
    (dropSuf (str ".org") (dropSuf (str ".in") (dropSuf (str ".com") (preTld w))))
  refine ⟨s1, s2, s3, s4, hs1, hs2, hs3, hs4, ?_⟩
  have hnw : normalize_word w = dropSuf (str ".net") (dropSuf (str ".org")
      (dropSuf (str ".in") (dropSuf (str ".com") (preTld w)))) := by
    unfold normalize_word stripTlds tldList
    rw [List.foldl_cons, List.foldl_cons, List.foldl_cons, List.foldl_cons,
      List.foldl_nil]
  rw [hnw, ← h4, ← h3, ← h2, ← h1]

/-- Claim C3, counterexample: log_to_file with status=None writes TWO spaces
between "|" and "DEEP:", so the line is not of the claimed exact format
"timestamp | DEEP: text" with one space on each side of the separator. -/
theorem log_line_none_two_spaces_cex :
    logLine (str "2025-01-01 00:00:00") (str "hello") none ≠
      str "2025-01-01 00:00:00 | DEEP: hello" ++ ['\n'] := by
  decide

/-- Claim C3 (amended): append_to_input_file and log_to_file with a status flag
write exactly one space on each side of "|" ("ts | DEEP: text" and
"ts | DEEP: text | flag"), but log_to_file with status=None writes two spaces
before "DEEP:" ("ts |  DEEP: text"). -/
theorem log_line_formats (ts msg : List Char) :
    appendLine ts msg = ts ++ str " | DEEP: " ++ msg ++ ['\n'] ∧
    (∀ b : Bool, logLine ts msg (some b) =
      ts ++ str " | DEEP: " ++ msg ++ str " | " ++ boolStr b ++ ['\n']) ∧
    logLine ts msg none = ts ++ str " |  DEEP: " ++ msg ++ ['\n'] :=
  ⟨rfl, fun _ => rfl, rfl⟩

/-- Claim C4: for over-length text, splitting each chunk on ".", trimming and
dropping empty fragments, and concatenating across chunks in order yields
exactly the sequence of non-empty trimmed sentences of the original text
(with "?" and "!" normalized to "."), in order. -/
theorem chunk_text_roundtrip (text : List Char) (maxLen : Nat)
    (h : maxLen < (trim text).length) :
    (chunkText text maxLen).flatMap fragsOf = sentencesOf text := by
  obtain ⟨hgood, hJ, hQ, hflat⟩ := chunkFold_spec text maxLen
  unfold chunkText
  rw [if_neg (by omega)]
  by_cases h2 : (chunkFold text maxLen).2 = []
  · rw [if_pos h2]
    rw [h2, List.append_nil] at hflat
    exact hflat
  · rw [if_neg h2, List.flatMap_append]
    have hsing : ([joinDot (chunkFold text maxLen).2 ++ ['.']] :
        List (List Char)).flatMap fragsOf
        = fragsOf (joinDot (chunkFold text maxLen).2 ++ ['.']) := by simp
    rw [hsing, fragsOf_seal h2 fun g hg => (hgood g hg).1]
    exact hflat

/-- Witness for the chunk round-trip at text "abc. d" with max_len 3. -/
theorem chunk_text_roundtrip_witness :
    3 < (trim (str "abc. d")).length ∧
      (chunkText (str "abc. d") 3).flatMap fragsOf = sentencesOf (str "abc. d") :=
  ⟨by decide, chunk_text_roundtrip (str "abc. d") 3 (by decide)⟩

set_option maxRecDepth 200000 in
/-- Claim C5: normalize_pronounced_punctuation("print a plus b") returns
exactly "print a + b" — "plus" becomes "+", tightening removes the spaces and
the operator re-spacing pass reintroduces exactly one space on each side. -/
theorem normalize_plus_respaced :
    normalize_pronounced_punctuation (str "print a plus b") = str "print a + b" := by
  decide

set_option maxRecDepth 200000 in
/-- Claim C6: normalize_pronounced_punctuation("save file dot t x t") returns a
string ending in "file.txt" (in fact exactly "save file.txt"): the spelled-out
extension is rewritten by the extension rules and the space before the dot is
removed by the tightening pass. -/
theorem normalize_dot_txt_suffix :
    normalize_pronounced_punctuation (str "save file dot t x t") = str "save file.txt" ∧
    (str "file.txt").isSuffixOf
      (normalize_pronounced_punctuation (str "save file dot t x t")) = true := by
  decide

/-- Claim C7: when len(text.strip()) <= max_len, _chunk_text returns exactly
the one-element sequence containing the trimmed text. -/
theorem chunk_short_text_single (text : List Char) (maxLen : Nat)
    (h : (trim text).length ≤ maxLen) : chunkText text maxLen = [trim text] := by
  unfold chunkText
  rw [if_pos h]

/-- Witness for the short-text case at text " hi " with max_len 10. -/
theorem chunk_short_text_single_witness :
    (trim (str " hi ")).length ≤ 10 ∧ chunkText (str " hi ") 10 = [trim (str " hi ")] :=
  ⟨by decide, chunk_short_text_single (str " hi ") 10 (by decide)⟩

/-- Claim C8: log_to_file never propagates an exception (its try/except makes
it total: on failure it appends nothing and reports the error to the console),
and the urls openweb resolves and opens are the same whether or not the final
log append fails. -/
theorem openweb_log_failure_independent (sim : List Char → List Char → Rat)
    (websites : List (List Char × List Char)) (answers : List (List Char))
    (ts text : List Char) :
    (openweb sim websites answers false ts text).1
      = (openweb sim websites answers true ts text).1 ∧
    (openweb sim websites answers false ts text).2.1 = [] ∧
    (openweb sim websites answers false ts text).2.2 ≠ [] := by
  refine ⟨rfl, rfl, ?_⟩
  simp [openweb, logToFile]

/-- Claim C9: there is an over-length text (here four periods, with max_len 3)
made only of sentence terminators for which _chunk_text returns the empty
sequence: every fragment strips to empty and is skipped. -/
theorem chunk_overlong_can_be_empty :
    ∃ (text : List Char) (maxLen : Nat),
      maxLen < (trim text).length ∧ chunkText text maxLen = [] :=
  ⟨List.replicate 4 '.', 3, by decide, by decide⟩

/-- Claim C10: for every input, the output of normalize_pronounced_punctuation
contains no newline: the final whitespace-collapsing pass replaces every
whitespace character (including the "\n" produced by the new line rule) with a
single space, and the later passes introduce no whitespace. -/
theorem normalize_no_newline (t : List Char) :
    '\n' ∉ normalize_pronounced_punctuation t := by
  intro h
  unfold normalize_pronounced_punctuation at h
  have h1 := mem_trim h
  have h2 := mem_trim h1
  unfold dropWsBefore at h2
  rcases mem_dropWsBeforeGo _ [] '\n' h2 with h3 | h3
  · simp at h3
  · unfold collapseWhitespace collapseRun at h3
    rcases mem_collapseGo _ false '\n' h3 with h4 | h4
    · exact absurd h4 (by decide)
    · exact absurd h4.2 (by decide)

end Jarvis
